import Mathlib

/-! # ListSqlModel (client/src/listsqlmodel.cpp)

A shallow embedding of the filter escaping, the queued filter dispatch, the
JSON options handling and the role bookkeeping of `ListSqlModel`.

`QString` is embedded as a list of characters; the Qt member functions used by
the code are embedded one by one (`replace`, `startsWith`, `endsWith`,
`prepend`, `append`) and `escapeFilter` is the sequence of calls of the source.
-/

namespace ListSqlModel

/-! ## QString -/

/-- A `QString`: a finite sequence of characters. -/
abbrev QString := List Char

namespace QString

/-- Embeds `QString::isEmpty()`. -/
def isEmpty (s : QString) : Bool := List.isEmpty s

/-- Embeds `QString::replace(QChar ch, const QString &after)`: every occurrence of the
character `ch` is replaced by the string `after`. -/
def replaceStr (s : QString) (ch : Char) (after : QString) : QString :=
  s.flatMap (fun c => if c = ch then after else [c])

/-- Embeds `QString::replace(QChar before, QChar after)`: every occurrence of the
character `before` is replaced by the character `after`. -/
def replaceChr (s : QString) (before after : Char) : QString :=
  s.map (fun c => if c = before then after else c)

/-- Embeds `QString::startsWith(QChar c)`: the string is not empty and its first
character is `c`. -/
def startsWith (s : QString) (c : Char) : Bool :=
  match s with
  | [] => false
  | x :: _ => x == c

/-- Embeds `QString::endsWith(QChar c)`: the string is not empty and its last
character is `c`. -/
def endsWith (s : QString) (c : Char) : Bool :=
  match s.getLast? with
  | none => false
  | some x => x == c

/-- Embeds `QString::prepend(QChar c)`. -/
def prepend (s : QString) (c : Char) : QString := c :: s

/-- Embeds `QString::append(QChar c)`. -/
def append (s : QString) (c : Char) : QString := s ++ [c]

end QString

/-! ## escapeFilter -/

/-- The four `replace` calls of `escapeFilter` (lines 57-60), in source order. -/
def escapePasses (filter : QString) : QString :=
  let filter := QString.replaceStr filter '_' []
  let filter := QString.replaceStr filter '%' []
  let filter := QString.replaceChr filter '*' '%'
  let filter := QString.replaceChr filter '?' '_'
  filter

/-- Embeds `ListSqlModel::escapeFilter(QString filter)`. The `isEmpty` test of the
source has an empty body (its `return` is commented out), so it has no effect. -/
def escapeFilter (filter : QString) : QString :=
  let filter := if QString.isEmpty filter then filter else filter
  let filter := escapePasses filter
  let filter := if !QString.startsWith filter '%' then QString.prepend filter '%' else filter
  let filter := if !QString.endsWith filter '%' then QString.append filter '%' else filter
  filter

/-! ## JSON values and the decoder interface (QtCore) -/

/-- A `QByteArray`: a sequence of bytes, each below 256. -/
abbrev QByteArray := List Nat

/-- Embeds `QString::toUtf8()`. -/
def toUtf8 (s : QString) : QByteArray :=
  s.flatMap (fun c => (String.utf8EncodeChar c).map (fun b => b.toNat))

/-- A `const char *` literal as a `QByteArray` (ASCII text). -/
def bytesOf (s : String) : QByteArray := s.toList.map (fun c => c.toNat)

/-- A `QJsonValue`. Numbers are finite doubles, carried as rationals; an object
is the list of its key/value members. -/
inductive QJsonValue where
  | null : QJsonValue
  | bool (b : Bool) : QJsonValue
  | double (d : Rat) : QJsonValue
  | string (s : QString) : QJsonValue
  | array (items : List QJsonValue) : QJsonValue
  | object (members : List (QString × QJsonValue)) : QJsonValue

/-- A `QJsonObject`: the key/value members of a JSON object. -/
abbrev QJsonObject := List (QString × QJsonValue)

/-- A default-constructed `QJsonObject` (line 88): no members. -/
def QJsonObject.empty : QJsonObject := []

/-- Embeds `QJsonObject::value(key)`, as an optional value. -/
def QJsonObject.value (o : QJsonObject) (key : QString) : Option QJsonValue :=
  (o.find? (fun kv => kv.1 = key)).map (fun kv => kv.2)

/-- A `QJsonDocument`: null, or wrapping an array, or wrapping an object. -/
inductive QJsonDocument where
  | null : QJsonDocument
  | ofArray (items : List QJsonValue) : QJsonDocument
  | ofObject (o : QJsonObject) : QJsonDocument

/-- Embeds `QJsonDocument::isObject()`. -/
def QJsonDocument.isObject : QJsonDocument → Bool
  | .ofObject _ => true
  | _ => false

/-- Embeds `QJsonDocument::object()`: the wrapped object, an empty object when the
document does not wrap one. -/
def QJsonDocument.object : QJsonDocument → QJsonObject
  | .ofObject o => o
  | _ => QJsonObject.empty

/-- The enum `QJsonParseError::ParseError`. -/
inductive ParseError where
  | NoError | UnterminatedObject | MissingNameSeparator | UnterminatedArray
  | MissingValueSeparator | IllegalValue | TerminationByNumber | IllegalNumber
  | IllegalEscapeSequence | IllegalUTF8String | UnterminatedString
  | MissingObject | DeepNesting | DocumentTooLarge | GarbageAtEnd
  deriving DecidableEq, Repr

/-- A `QJsonParseError` (only the member `error` is read by the code). -/
structure QJsonParseError where
  error : ParseError
  deriving DecidableEq, Repr

/-- The signature of `QJsonDocument::fromJson(const QByteArray &, QJsonParseError *)`:
the decoder is a collaborator from QtCore and is a parameter of the embedding.
It returns the document together with the value written through the pointer. -/
abbrev JsonDecoder := QByteArray → QJsonDocument × QJsonParseError

/-! ## The model object -/

/-- A `QModelIndex`, reduced to its row and column. -/
structure QModelIndex where
  row : Int
  column : Int
  deriving DecidableEq, Repr

/-- A `QVariant`, reduced to the payload kinds needed here. -/
inductive QVariant where
  | invalid : QVariant
  | int (i : Int) : QVariant
  | bool (b : Bool) : QVariant
  | string (s : QString) : QVariant
  | byteArray (b : QByteArray) : QVariant
  deriving DecidableEq, Repr

/-- A `QHash<int, QByteArray>`, as a finite mapping seen through its lookup. -/
abbrev RoleHash := Int → Option QByteArray

/-- Embeds `QHash::contains(key)`. -/
def RoleHash.contains (h : RoleHash) (key : Int) : Bool := (h key).isSome

/-- Embeds `QHash::insert(key, value)` (also `operator[]` assignment): the entry for
`key` becomes `value`, the other entries are kept. -/
def RoleHash.insert (h : RoleHash) (key : Int) (value : QByteArray) : RoleHash :=
  fun k => if k = key then some value else h k

/-- The state of a `ListSqlModel` object that the embedded member functions
read or write.

* `needEscapeFilter`, `getLastRole`: the results of the member functions of
  these names, which `listsqlmodel.h` declares; neither is written by the
  embedded functions.
* `mRoleNames`: the mutable member `mRoleNames`.
* `baseData`: `QStandardItemModel::data` of the base row store.
* `pending`: the `filterRequest` emissions posted through the
  `Qt::QueuedConnection` of lines 31-32 and not yet delivered to the slot.
* `implCalls`: the calls of `setFilterImpl` made so far, oldest first.
* `warnings`: the `qWarning()` lines written so far, oldest first. -/
structure State where
  needEscapeFilter : Bool
  getLastRole : Int
  mRoleNames : RoleHash
  baseData : QModelIndex → Int → QVariant
  pending : List (QString × QString)
  implCalls : List (QString × QJsonObject)
  warnings : List String

/-- The statement `emit filterRequest(filter, options)`. The only connection of
the signal is the queued one to the slot `_setFilter` (lines 31-32, 47-48): the
emission posts one event behind those already pending and calls nothing. -/
def emitFilterRequest (m : State) (filter options : QString) : State :=
  { m with pending := m.pending ++ [(filter, options)] }

/-- Embeds `ListSqlModel::setFilter(QString filter, QString options)`. -/
def setFilter (m : State) (filter options : QString) : State :=
  if m.needEscapeFilter then
    emitFilterRequest m (escapeFilter filter) options
  else
    emitFilterRequest m filter options

/-- Modelled from the spec: `setFilterImpl`, the query-execution collaborator,
which `listsqlmodel.h` declares and no file under src/ defines. It accepts the
filter and the options mapping; the call is recorded. -/
def setFilterImpl (m : State) (filter : QString) (options : QJsonObject) : State :=
  { m with implCalls := m.implCalls ++ [(filter, options)] }

/-- The statement `qWarning() << text`. -/
def qWarning (m : State) (text : String) : State :=
  { m with warnings := m.warnings ++ [text] }

/-- Embeds `ListSqlModel::_setFilter(QString filter, QString options)`. -/
def _setFilter (fromJson : JsonDecoder) (m : State) (filter options : QString) : State :=
  let (doc, err) := fromJson (toUtf8 options)
  let obj : QJsonObject := QJsonObject.empty
  let (m, obj) :=
    if err.error ≠ ParseError.NoError then
      (qWarning m "Cannot parse filter options json!", obj)
    else
      if doc.isObject then
        (m, doc.object)
      else
        (qWarning m "Filter options must be json object", obj)
  setFilterImpl m filter obj

/-- One turn of the event loop: the oldest pending `filterRequest` event, if
there is one, is delivered to the slot `_setFilter`. -/
def processEvent (fromJson : JsonDecoder) (m : State) : State :=
  match m.pending with
  | [] => m
  | (filter, options) :: rest => _setFilter fromJson { m with pending := rest } filter options

/-- The event loop run until no event is pending; `fuel` bounds the number of
turns. -/
def processEvents (fromJson : JsonDecoder) : Nat → State → State
  | 0, m => m
  | fuel + 1, m => processEvents fromJson fuel (processEvent fromJson m)

/-- A sequence of `setFilter` calls, made one after the other without returning
to the event loop. -/
def setFilterAll (m : State) (calls : List (QString × QString)) : State :=
  calls.foldl (fun st c => setFilter st c.1 c.2) m

/-- Modelled from the spec: `setRoleName`, which `listsqlmodel.h` declares and
no file under src/ defines; it registers `name` for `role` in `mRoleNames`. -/
def setRoleName (m : State) (role : Int) (name : QByteArray) : State :=
  { m with mRoleNames := m.mRoleNames.insert role name }

/-- The constructor of lines 11-33, on the embedded state: no role is
registered but `SelectedRole` (an enumerator of `listsqlmodel.h`, a parameter
here), no event is pending and nothing has been forwarded or logged. -/
def construct (needEscapeFilter : Bool) (getLastRole selectedRole : Int)
    (baseData : QModelIndex → Int → QVariant) : State :=
  setRoleName
    { needEscapeFilter := needEscapeFilter, getLastRole := getLastRole,
      mRoleNames := fun _ => none, baseData := baseData,
      pending := [], implCalls := [], warnings := [] }
    selectedRole (bytesOf "selected")

/-- Embeds `ListSqlModel::data(const QModelIndex &item, int role) const`. -/
def data (m : State) (item : QModelIndex) (role : Int) : QVariant :=
  if role = m.getLastRole then
    QVariant.int item.row
  else
    m.baseData item role

/-- Embeds `ListSqlModel::roleNames() const`: the returned mapping, and the object
after the call (`mRoleNames` is written from this const member function). -/
def roleNames (m : State) : RoleHash × State :=
  let lastRole := m.getLastRole
  let m := if !m.mRoleNames.contains lastRole then setRoleName m lastRole (bytesOf "index") else m
  (m.mRoleNames, m)

/-! ## The specification's reading of `escapeFilter` -/

/-- What the single per-character pass of the specification writes for one
character of the original input: nothing for an underscore or a percent sign, a
percent sign for an asterisk, an underscore for a question mark, the character
itself otherwise. -/
def specChar (c : Char) : QString :=
  if c = '_' ∨ c = '%' then []
  else if c = '*' then ['%']
  else if c = '?' then ['_']
  else [c]

/-- The single left-to-right per-character pass of the specification over the
original input. -/
def specPass (s : QString) : QString := s.flatMap specChar

/-- The wrapping step of the specification: one percent sign is put in front
unless the text already starts with one, and then one is put behind unless the
text already ends with one. -/
def specWrap (p : QString) : QString :=
  let q := if p.head? = some '%' then p else '%' :: p
  if q.getLast? = some '%' then q else q ++ ['%']

/-- Whether a character is one of the four the filter syntax treats specially. -/
def isSpecial (c : Char) : Bool := c == '_' || c == '%' || c == '*' || c == '?'

/-- The input with every underscore, percent sign, asterisk and question mark
removed. -/
def stripSpecial (s : QString) : QString := s.filter (fun c => !isSpecial c)

/-! ## Test doubles -/

/-- A stand-in for the JSON decoder that knows three texts: it decodes
`{"a":1}` to the object with the member `a` of value 1, decodes `[1,2,3]` to
the array of 1, 2, 3, and reports `IllegalValue` with a null document for
every other text. -/
def stubFromJson : JsonDecoder := fun bytes =>
  if bytes = toUtf8 "\x7b\"a\":1\x7d".toList then
    (QJsonDocument.ofObject [("a".toList, QJsonValue.double 1)], ⟨ParseError.NoError⟩)
  else if bytes = toUtf8 "[1,2,3]".toList then
    (QJsonDocument.ofArray [QJsonValue.double 1, QJsonValue.double 2, QJsonValue.double 3],
      ⟨ParseError.NoError⟩)
  else
    (QJsonDocument.null, ⟨ParseError.IllegalValue⟩)

/-- A base row store that holds the text `row` for every cell and role. -/
def stubBaseData : QModelIndex → Int → QVariant := fun _ _ => QVariant.string "row".toList

/-- A freshly constructed model with escaping switched on, `SelectedRole` 256
and last role 300, over `stubBaseData`. -/
def sampleModel : State := construct true 300 256 stubBaseData

/-! ## Lemmas on the string operations -/

theorem startsWith_iff (s : QString) (c : Char) :
    QString.startsWith s c = true ↔ s.head? = some c := by
  cases s with
  | nil => simp [QString.startsWith]
  | cons x xs => simp [QString.startsWith]

theorem endsWith_iff (s : QString) (c : Char) :
    QString.endsWith s c = true ↔ s.getLast? = some c := by
  unfold QString.endsWith
  cases h : s.getLast? with
  | none => simp
  | some x => simp

theorem escapePasses_nil : escapePasses [] = [] := rfl

theorem escapePasses_cons (c : Char) (s : QString) :
    escapePasses (c :: s) = specChar c ++ escapePasses s := by
  unfold escapePasses QString.replaceStr QString.replaceChr specChar
  by_cases h1 : c = '_'
  · subst h1; simp
  · by_cases h2 : c = '%'
    · subst h2; simp
    · by_cases h3 : c = '*'
      · subst h3; simp
      · by_cases h4 : c = '?'
        · subst h4; simp
        · simp [h1, h2, h3, h4]

theorem escapePasses_eq_specPass (s : QString) : escapePasses s = specPass s := by
  induction s with
  | nil => rfl
  | cons c s ih => rw [escapePasses_cons, ih]; simp [specPass]

theorem escapePasses_append (a b : QString) :
    escapePasses (a ++ b) = escapePasses a ++ escapePasses b := by
  simp [escapePasses_eq_specPass, specPass]

theorem escapeFilter_eq_specWrap (s : QString) :
    escapeFilter s = specWrap (escapePasses s) := by
  unfold escapeFilter specWrap QString.prepend QString.append
  simp only [ite_self]
  by_cases h : QString.startsWith (escapePasses s) '%' = true
  · have h2 := (startsWith_iff _ _).1 h
    simp only [h, h2, Bool.not_true, Bool.false_eq_true, if_false, if_true]
    by_cases g : QString.endsWith (escapePasses s) '%' = true
    · have g2 := (endsWith_iff _ _).1 g
      simp [g, g2]
    · have g2 : ¬ (escapePasses s).getLast? = some '%' := fun e => g ((endsWith_iff _ _).2 e)
      simp [g, g2]
  · have h2 : ¬ (escapePasses s).head? = some '%' := fun e => h ((startsWith_iff _ _).2 e)
    simp only [h, h2, Bool.not_false, if_false, if_true]
    by_cases g : QString.endsWith ('%' :: escapePasses s) '%' = true
    · have g2 := (endsWith_iff _ _).1 g
      simp [g, g2]
    · have g2 : ¬ ('%' :: escapePasses s).getLast? = some '%' :=
        fun e => g ((endsWith_iff _ _).2 e)
      simp [g, g2]

theorem specWrap_head (p : QString) : (specWrap p).head? = some '%' := by
  unfold specWrap
  by_cases h : p.head? = some '%'
  · simp only [h, if_true]
    split
    · exact h
    · cases p with
      | nil => simp at h
      | cons x xs => simpa using h
  · simp only [h, if_false]
    split <;> simp

theorem specWrap_getLast (p : QString) : (specWrap p).getLast? = some '%' := by
  unfold specWrap
  generalize (if p.head? = some '%' then p else '%' :: p) = q
  by_cases h : q.getLast? = some '%'
  · simp only [h, if_true]
  · simp only [h, if_false]
    simp

theorem specWrap_ne_nil (p : QString) : specWrap p ≠ [] := by
  intro h
  have := specWrap_head p
  rw [h] at this
  simp at this

theorem escapePasses_of_plain (s : QString)
    (h : ∀ c ∈ s, c ≠ '_' ∧ c ≠ '%' ∧ c ≠ '*' ∧ c ≠ '?') : escapePasses s = s := by
  induction s with
  | nil => rfl
  | cons c s ih =>
    have hc := h c (List.mem_cons_self c s)
    rw [escapePasses_cons, ih (fun d hd => h d (List.mem_cons_of_mem c hd))]
    simp [specChar, hc.1, hc.2.1, hc.2.2.1, hc.2.2.2]

theorem escapePasses_count_percent (s : QString) :
    (escapePasses s).count '%' = s.count '*' := by
  induction s with
  | nil => rfl
  | cons c s ih =>
    rw [escapePasses_cons, List.count_append, ih, List.count_cons]
    unfold specChar
    by_cases h1 : c = '_'
    · subst h1; simp
    · by_cases h2 : c = '%'
      · subst h2; simp
      · by_cases h3 : c = '*'
        · subst h3; simp; omega
        · by_cases h4 : c = '?'
          · subst h4; simp
          · simp [h1, h2, h3, h4, List.count_singleton]

theorem escapePasses_count_underscore (s : QString) :
    (escapePasses s).count '_' = s.count '?' := by
  induction s with
  | nil => rfl
  | cons c s ih =>
    rw [escapePasses_cons, List.count_append, ih, List.count_cons]
    unfold specChar
    by_cases h1 : c = '_'
    · subst h1; simp
    · by_cases h2 : c = '%'
      · subst h2; simp
      · by_cases h3 : c = '*'
        · subst h3; simp
        · by_cases h4 : c = '?'
          · subst h4; simp; omega
          · simp [h1, h2, h3, h4, List.count_singleton]

theorem escapePasses_specChar (c : Char) :
    escapePasses (specChar c) = if isSpecial c then [] else [c] := by
  unfold specChar isSpecial
  by_cases h1 : c = '_'
  · subst h1; decide
  · by_cases h2 : c = '%'
    · subst h2; decide
    · by_cases h3 : c = '*'
      · subst h3; decide
      · by_cases h4 : c = '?'
        · subst h4; decide
        · simp only [h1, h2, h3, h4, or_self, if_false]
          rw [escapePasses_cons, escapePasses_nil]
          simp [specChar, h1, h2, h3, h4]

theorem escapePasses_twice (s : QString) :
    escapePasses (escapePasses s) = stripSpecial s := by
  induction s with
  | nil => rfl
  | cons c s ih =>
    rw [escapePasses_cons, escapePasses_append, ih, escapePasses_specChar]
    unfold stripSpecial
    by_cases h : isSpecial c = true
    · simp [h]
    · simp [h]

theorem escapePasses_stripSpecial (s : QString) :
    escapePasses (stripSpecial s) = stripSpecial s := by
  apply escapePasses_of_plain
  intro c hc
  have h := (List.mem_filter.1 hc).2
  simp only [isSpecial, Bool.not_eq_true', Bool.or_eq_false_iff, beq_eq_false_iff_ne] at h
  exact ⟨h.1.1.1, h.1.1.2, h.1.2, h.2⟩

theorem escapePasses_specWrap (p : QString) :
    escapePasses (specWrap p) = escapePasses p := by
  have e : escapePasses ['%'] = [] := by decide
  unfold specWrap
  by_cases h : p.head? = some '%' <;> simp only [h, if_true, if_false]
  · split
    · rfl
    · rw [escapePasses_append, e]; simp
  · split
    · rw [escapePasses_cons]; simp [specChar]
    · rw [escapePasses_append, escapePasses_cons, e]; simp [specChar]

/-! ## Claims on `escapeFilter` -/

/-- C1: for every input string the result of `escapeFilter` is not empty, its
first character is a percent sign and its last character is a percent sign. -/
theorem escapeFilter_starts_and_ends_with_percent (s : QString) :
    escapeFilter s ≠ [] ∧ (escapeFilter s).head? = some '%' ∧
      (escapeFilter s).getLast? = some '%' := by
  rw [escapeFilter_eq_specWrap]
  exact ⟨specWrap_ne_nil _, specWrap_head _, specWrap_getLast _⟩

/-- C2, as the claim states it, fails: `escapeFilter` of the empty string is
not the two-character string of two percent signs. -/
theorem escapeFilter_empty_ne_two_percent : escapeFilter "".toList ≠ "%%".toList := by
  decide

/-- C2, amended: `escapeFilter` of the empty string is the one-character string
made of a single percent sign (the prepended sign already ends the string, so
none is appended). -/
theorem escapeFilter_empty : escapeFilter "".toList = "%".toList := by
  decide

/-- C3, as the claim states it, fails at the empty string, which contains none
of the four special characters: the result is not the input between two percent
signs. -/
theorem escapeFilter_plain_fails_at_empty :
    (∀ c ∈ "".toList, c ≠ '_' ∧ c ≠ '%' ∧ c ≠ '*' ∧ c ≠ '?') ∧
      escapeFilter "".toList ≠ "%".toList ++ "".toList ++ "%".toList := by
  refine ⟨?_, by decide⟩
  intro c hc
  simp at hc

/-- C3, amended: for every input string that contains none of the four special
characters, `escapeFilter` returns the input between two percent signs when the
input is not empty, and the single percent sign when it is empty. -/
theorem escapeFilter_plain (s : QString)
    (h : ∀ c ∈ s, c ≠ '_' ∧ c ≠ '%' ∧ c ≠ '*' ∧ c ≠ '?') :
    escapeFilter s = if s = [] then "%".toList else "%".toList ++ s ++ "%".toList := by
  rw [escapeFilter_eq_specWrap, escapePasses_of_plain s h]
  cases s with
  | nil => decide
  | cons x xs =>
    have hx : x ≠ '%' := (h x (List.mem_cons_self x xs)).2.1
    have hl : ¬ (x :: xs).getLast? = some '%' := by
      intro e
      have hm := List.mem_of_getLast?_eq_some e
      exact (h '%' hm).2.1 rfl
    have hl2 : ¬ ('%' :: x :: xs).getLast? = some '%' := by
      simpa [List.getLast?_cons_cons] using hl
    simp only [specWrap, List.head?_cons, Option.some.injEq, hx, if_false, hl2]
    simp

/-- Witness of `escapeFilter_plain` at the input `abc`. -/
theorem escapeFilter_plain_witness :
    escapeFilter "abc".toList =
      if "abc".toList = [] then "%".toList else "%".toList ++ "abc".toList ++ "%".toList :=
  escapeFilter_plain "abc".toList (by decide)

/-- C4: the four replace-all passes of `escapeFilter` equal the single
per-character pass of the specification over the original input, and
`escapeFilter` is that pass followed by the conditional wrapping; every percent
sign after the passes comes from an asterisk of the input and every underscore
from a question mark; the three worked inputs give the stated results. -/
theorem escapeFilter_is_single_pass_then_wrap :
    (∀ s : QString, escapePasses s = specPass s) ∧
    (∀ s : QString, escapeFilter s = specWrap (specPass s)) ∧
    (∀ s : QString, (escapePasses s).count '%' = s.count '*' ∧
      (escapePasses s).count '_' = s.count '?') ∧
    escapeFilter "a_b%c".toList = "%abc%".toList ∧
    escapeFilter "*ab?".toList = "%ab_%".toList ∧
    escapeFilter "%50%".toList = "%50%".toList := by
  refine ⟨escapePasses_eq_specPass, ?_, ?_, by decide, by decide, by decide⟩
  · intro s
    rw [escapeFilter_eq_specWrap, escapePasses_eq_specPass]
  · intro s
    exact ⟨escapePasses_count_percent s, escapePasses_count_underscore s⟩

/-- C10: escaping a second time gives the escaping of the input with all four
special characters removed, and `escapeFilter` is not idempotent: the input
`a?b` gives `%a_b%`, and escaping that again gives `%ab%`. -/
theorem escapeFilter_twice :
    (∀ s : QString, escapeFilter (escapeFilter s) = escapeFilter (stripSpecial s)) ∧
    escapeFilter "a?b".toList = "%a_b%".toList ∧
    escapeFilter (escapeFilter "a?b".toList) = "%ab%".toList ∧
    escapeFilter (escapeFilter "a?b".toList) ≠ escapeFilter "a?b".toList := by
  refine ⟨?_, by decide, by decide, by decide⟩
  intro s
  rw [escapeFilter_eq_specWrap (escapeFilter s), escapeFilter_eq_specWrap s,
    escapePasses_specWrap, escapePasses_twice, escapeFilter_eq_specWrap (stripSpecial s),
    escapePasses_stripSpecial]

/-! ## Lemmas on the dispatch -/

theorem setFilter_pending (m : State) (f o : QString) :
    (setFilter m f o).pending =
      m.pending ++ [(if m.needEscapeFilter then escapeFilter f else f, o)] := by
  unfold setFilter emitFilterRequest
  cases m.needEscapeFilter <;> simp

theorem setFilter_implCalls (m : State) (f o : QString) :
    (setFilter m f o).implCalls = m.implCalls := by
  unfold setFilter emitFilterRequest
  cases m.needEscapeFilter <;> simp

theorem setFilter_needEscapeFilter (m : State) (f o : QString) :
    (setFilter m f o).needEscapeFilter = m.needEscapeFilter := by
  unfold setFilter emitFilterRequest
  cases m.needEscapeFilter <;> simp

theorem setFilterAll_spec (calls : List (QString × QString)) (m : State) :
    (setFilterAll m calls).implCalls = m.implCalls ∧
    (setFilterAll m calls).needEscapeFilter = m.needEscapeFilter ∧
    (setFilterAll m calls).pending =
      m.pending ++ calls.map
        (fun c => (if m.needEscapeFilter then escapeFilter c.1 else c.1, c.2)) := by
  induction calls generalizing m with
  | nil => simp [setFilterAll]
  | cons c cs ih =>
    have h := ih (setFilter m c.1 c.2)
    unfold setFilterAll at h ⊢
    rw [List.foldl_cons]
    rw [setFilter_implCalls, setFilter_needEscapeFilter, setFilter_pending] at h
    refine ⟨h.1, h.2.1, ?_⟩
    rw [h.2.2]
    simp

theorem slot_pending (fromJson : JsonDecoder) (m : State) (f o : QString) :
    (_setFilter fromJson m f o).pending = m.pending := by
  unfold _setFilter setFilterImpl qWarning
  rcases fromJson (toUtf8 o) with ⟨doc, err⟩
  dsimp only
  by_cases h : err.error = ParseError.NoError
  · by_cases g : doc.isObject = true
    · simp [h, g]
    · simp [h, g]
  · simp [h]

theorem slot_implCalls (fromJson : JsonDecoder) (m : State) (f o : QString) :
    (_setFilter fromJson m f o).implCalls = m.implCalls ++
      [(f, if (fromJson (toUtf8 o)).2.error ≠ ParseError.NoError then QJsonObject.empty
           else if (fromJson (toUtf8 o)).1.isObject then (fromJson (toUtf8 o)).1.object
           else QJsonObject.empty)] := by
  unfold _setFilter setFilterImpl qWarning
  rcases fromJson (toUtf8 o) with ⟨doc, err⟩
  dsimp only
  by_cases h : err.error = ParseError.NoError
  · by_cases g : doc.isObject = true
    · simp [h, g]
    · simp [h, g]
  · simp [h]

theorem slot_with_pending (fromJson : JsonDecoder) (m : State) (f o : QString)
    (q : List (QString × QString)) :
    _setFilter fromJson { m with pending := q } f o =
      { _setFilter fromJson m f o with pending := q } := by
  unfold _setFilter setFilterImpl qWarning
  rcases fromJson (toUtf8 o) with ⟨doc, err⟩
  dsimp only
  by_cases h : err.error = ParseError.NoError
  · by_cases g : doc.isObject = true
    · simp [h, g]
    · simp [h, g]
  · simp [h]

theorem processEvents_drain_aux (fromJson : JsonDecoder) (q : List (QString × QString))
    (m : State) :
    processEvents fromJson q.length { m with pending := q } =
      q.foldl (fun st e => _setFilter fromJson st e.1 e.2) { m with pending := [] } := by
  induction q generalizing m with
  | nil => rfl
  | cons e rest ih =>
    have hp : processEvent fromJson { m with pending := e :: rest } =
        { _setFilter fromJson m e.1 e.2 with pending := rest } := by
      rw [← slot_with_pending]; rfl
    have hq : _setFilter fromJson { m with pending := [] } e.1 e.2 =
        { _setFilter fromJson m e.1 e.2 with pending := [] } :=
      slot_with_pending fromJson m e.1 e.2 []
    simp only [List.length_cons, processEvents, List.foldl_cons]
    rw [hp, hq]
    exact ih (_setFilter fromJson m e.1 e.2)

theorem processEvents_drain (fromJson : JsonDecoder) (m : State) :
    processEvents fromJson m.pending.length m =
      m.pending.foldl (fun st e => _setFilter fromJson st e.1 e.2) { m with pending := [] } :=
  processEvents_drain_aux fromJson m.pending m

theorem foldl_slot_spec (fromJson : JsonDecoder) (q : List (QString × QString))
    (m : State) :
    (q.foldl (fun st e => _setFilter fromJson st e.1 e.2) m).pending = m.pending ∧
    (q.foldl (fun st e => _setFilter fromJson st e.1 e.2) m).implCalls.map Prod.fst =
      m.implCalls.map Prod.fst ++ q.map Prod.fst := by
  induction q generalizing m with
  | nil => simp
  | cons e rest ih =>
    have h := ih (_setFilter fromJson m e.1 e.2)
    rw [slot_pending, slot_implCalls] at h
    simp only [List.foldl_cons]
    refine ⟨h.1, ?_⟩
    rw [h.2]
    simp

/-! ## Claims on the dispatch -/

/-- C5: `setFilter` emits exactly one `filterRequest` event, behind those
already pending: its filter is `escapeFilter` of the argument when
`needEscapeFilter` holds and the argument itself otherwise, and its options are
the argument unchanged in both cases. -/
theorem setFilter_emits_one_event (m : State) (f o : QString) :
    (m.needEscapeFilter = true →
      (setFilter m f o).pending = m.pending ++ [(escapeFilter f, o)]) ∧
    (m.needEscapeFilter = false →
      (setFilter m f o).pending = m.pending ++ [(f, o)]) := by
  rw [setFilter_pending]
  constructor <;> intro h <;> simp [h]

/-- Witness of `setFilter_emits_one_event` on a freshly constructed model with
escaping switched on. -/
theorem setFilter_emits_one_event_witness :
    sampleModel.needEscapeFilter = true ∧
    (setFilter sampleModel "a?b".toList "\x7b\x7d".toList).pending =
      sampleModel.pending ++ [(escapeFilter "a?b".toList, "\x7b\x7d".toList)] :=
  ⟨rfl, (setFilter_emits_one_event sampleModel "a?b".toList "\x7b\x7d".toList).1 rfl⟩

/-- C6: `_setFilter` calls `setFilterImpl` exactly once, whatever the decoder
returns, with the filter unchanged; the forwarded options are the decoded
object when the decoder reports no error and the document is an object, and
the empty object when it reports an error or the document is not an object. -/
theorem slot_forwards_once (fromJson : JsonDecoder) (m : State) (f o : QString) :
    (∃ obj, (_setFilter fromJson m f o).implCalls = m.implCalls ++ [(f, obj)]) ∧
    ((fromJson (toUtf8 o)).2.error ≠ ParseError.NoError →
      (_setFilter fromJson m f o).implCalls = m.implCalls ++ [(f, QJsonObject.empty)]) ∧
    (∀ obj, fromJson (toUtf8 o) = (QJsonDocument.ofObject obj, ⟨ParseError.NoError⟩) →
      (_setFilter fromJson m f o).implCalls = m.implCalls ++ [(f, obj)]) ∧
    ((fromJson (toUtf8 o)).2.error = ParseError.NoError →
      (fromJson (toUtf8 o)).1.isObject = false →
      (_setFilter fromJson m f o).implCalls = m.implCalls ++ [(f, QJsonObject.empty)]) := by
  rw [slot_implCalls]
  refine ⟨⟨_, rfl⟩, ?_, ?_, ?_⟩
  · intro h
    simp [h]
  · intro obj h
    simp [h, QJsonDocument.isObject, QJsonDocument.object]
  · intro h g
    simp [h, g]

/-- Witness of `slot_forwards_once` with the stand-in decoder: the text
`{"a":1}` forwards the mapping of `a` to 1, the texts `{not json` and `[1,2,3]`
forward the empty mapping. -/
theorem slot_forwards_once_witness :
    (_setFilter stubFromJson sampleModel "x".toList "\x7b\"a\":1\x7d".toList).implCalls =
      sampleModel.implCalls ++ [("x".toList, [("a".toList, QJsonValue.double 1)])] ∧
    QJsonObject.value [("a".toList, QJsonValue.double 1)] "a".toList =
      some (QJsonValue.double 1) ∧
    (_setFilter stubFromJson sampleModel "x".toList "\x7bnot json".toList).implCalls =
      sampleModel.implCalls ++ [("x".toList, QJsonObject.empty)] ∧
    (_setFilter stubFromJson sampleModel "x".toList "[1,2,3]".toList).implCalls =
      sampleModel.implCalls ++ [("x".toList, QJsonObject.empty)] :=
  ⟨(slot_forwards_once stubFromJson sampleModel "x".toList "\x7b\"a\":1\x7d".toList).2.2.1
      _ rfl,
   rfl,
   (slot_forwards_once stubFromJson sampleModel "x".toList "\x7bnot json".toList).2.1
      (by decide),
   (slot_forwards_once stubFromJson sampleModel "x".toList "[1,2,3]".toList).2.2.2
      (by decide) rfl⟩

/-- C7: over the event-queue model of the queued connection, `setFilter` never
calls `setFilterImpl`; after any sequence of `setFilter` calls without a turn
of the event loop the recorded calls of `setFilterImpl` are those from before
the sequence (none on a fresh model) and the queue holds, behind what was
pending, exactly one event per call, in call order; one turn of the event loop
delivers the oldest event and leaves the rest, and draining the queue runs the
slot on the events in queue order. -/
theorem setFilter_is_queued (fromJson : JsonDecoder) (m : State)
    (calls : List (QString × QString)) :
    (∀ f o, (setFilter m f o).implCalls = m.implCalls) ∧
    (setFilterAll m calls).implCalls = m.implCalls ∧
    (setFilterAll m calls).pending =
      m.pending ++ calls.map
        (fun c => (if m.needEscapeFilter then escapeFilter c.1 else c.1, c.2)) ∧
    (setFilterAll m calls).pending.length = m.pending.length + calls.length ∧
    (∀ esc last sel base,
      (setFilterAll (construct esc last sel base) calls).implCalls = [] ∧
      (setFilterAll (construct esc last sel base) calls).pending =
        calls.map (fun c => (if esc then escapeFilter c.1 else c.1, c.2))) ∧
    (∀ e rest, processEvent fromJson { m with pending := e :: rest } =
      _setFilter fromJson { m with pending := rest } e.1 e.2) ∧
    processEvents fromJson m.pending.length m =
      m.pending.foldl (fun st e => _setFilter fromJson st e.1 e.2) { m with pending := [] } ∧
    (processEvents fromJson m.pending.length m).pending = [] ∧
    (processEvents fromJson m.pending.length m).implCalls.map Prod.fst =
      m.implCalls.map Prod.fst ++ m.pending.map Prod.fst := by
  have h := setFilterAll_spec calls m
  have d := processEvents_drain fromJson m
  have g := foldl_slot_spec fromJson m.pending { m with pending := [] }
  refine ⟨setFilter_implCalls m, h.1, h.2.2, ?_, ?_, ?_, d, ?_, ?_⟩
  · rw [h.2.2]; simp
  · intro esc last sel base
    have h2 := setFilterAll_spec calls (construct esc last sel base)
    refine ⟨h2.1, ?_⟩
    rw [h2.2.2]
    simp [construct, setRoleName]
  · intro e rest
    rfl
  · rw [d]; exact g.1
  · rw [d]; exact g.2

/-! ## Claims on the roles -/

/-- C8: `data` returns the row number of the index for the role `getLastRole()`,
whatever the base row store holds for that role, and returns the data of the
base row store for every other role. -/
theorem data_last_role_is_row (m : State) (item : QModelIndex) (role : Int) :
    (role = m.getLastRole → data m item role = QVariant.int item.row) ∧
    (role ≠ m.getLastRole → data m item role = m.baseData item role) := by
  unfold data
  constructor <;> intro h <;> simp [h]

/-- Witness of `data_last_role_is_row`: on the sample model the last role 300
gives the row number 7, the role 256 gives what the base row store holds. -/
theorem data_last_role_is_row_witness :
    data sampleModel ⟨7, 0⟩ 300 = QVariant.int 7 ∧
    data sampleModel ⟨7, 0⟩ 256 = QVariant.string "row".toList :=
  ⟨(data_last_role_is_row sampleModel ⟨7, 0⟩ 300).1 rfl,
   (data_last_role_is_row sampleModel ⟨7, 0⟩ 256).2 (by decide)⟩

theorem roleNames_fst (m : State) : (roleNames m).1 = (roleNames m).2.mRoleNames := rfl

theorem roleNames_contains (m : State) :
    (roleNames m).2.mRoleNames.contains (roleNames m).2.getLastRole = true := by
  unfold roleNames
  by_cases h : m.mRoleNames.contains m.getLastRole = true
  · simp only [h, Bool.not_true, Bool.false_eq_true, if_false]
  · simp only [h, Bool.not_eq_true, Bool.not_false, if_true]
    simp [setRoleName, RoleHash.insert, RoleHash.contains]

theorem roleNames_of_contains (m : State)
    (h : m.mRoleNames.contains m.getLastRole = true) : roleNames m = (m.mRoleNames, m) := by
  unfold roleNames
  simp [h]

/-- C9: `roleNames` registers the row-index role by idempotent insertion: the
returned mapping has, for `getLastRole()`, the name `index` when the role was
not registered and the name registered before otherwise; every other entry is
the one of the registry before the call; the registry after the call is the
returned mapping; a second call returns the same mapping and leaves the object
unchanged. -/
theorem roleNames_registers_index_once (m : State) :
    (m.mRoleNames.contains m.getLastRole = false →
      (roleNames m).1 m.getLastRole = some (bytesOf "index")) ∧
    (∀ name, m.mRoleNames m.getLastRole = some name →
      (roleNames m).1 m.getLastRole = some name) ∧
    (∀ role, role ≠ m.getLastRole → (roleNames m).1 role = m.mRoleNames role) ∧
    (roleNames m).2.mRoleNames = (roleNames m).1 ∧
    (roleNames (roleNames m).2).1 = (roleNames m).1 ∧
    (roleNames (roleNames m).2).2 = (roleNames m).2 := by
  refine ⟨?_, ?_, ?_, rfl, ?_, ?_⟩
  · intro h
    simp [roleNames, h, setRoleName, RoleHash.insert]
  · intro name h
    have hc : m.mRoleNames.contains m.getLastRole = true := by
      simp [RoleHash.contains, h]
    rw [roleNames_of_contains m hc]
    exact h
  · intro role h
    unfold roleNames
    by_cases hc : m.mRoleNames.contains m.getLastRole = true
    · simp [hc]
    · simp [hc, setRoleName, RoleHash.insert, h]
  · rw [roleNames_of_contains _ (roleNames_contains m)]
    rfl
  · rw [roleNames_of_contains _ (roleNames_contains m)]

/-- Witness of `roleNames_registers_index_once` on the sample model, where the
role 300 is not registered and the role 256 carries the name `selected`. -/
theorem roleNames_registers_index_once_witness :
    (roleNames sampleModel).1 300 = some (bytesOf "index") ∧
    (roleNames sampleModel).1 256 = sampleModel.mRoleNames 256 ∧
    (roleNames (setRoleName sampleModel 300 (bytesOf "row"))).1 300 = some (bytesOf "row") :=
  ⟨(roleNames_registers_index_once sampleModel).1 (by decide),
   (roleNames_registers_index_once sampleModel).2.2.1 256 (by decide),
   (roleNames_registers_index_once (setRoleName sampleModel 300 (bytesOf "row"))).2.1
     (bytesOf "row") (by decide)⟩

end ListSqlModel
